import Mathlib

/-!
Shallow embedding of the questionnaire-analysis module (hw5.py).

The module wraps a loaded tabular record set (rows with fields age, email,
gender, q1..q5) and exposes independent analysis operations: an age
histogram, email validation and row filtering, missing-answer imputation,
per-subject scoring, and gender/age grouping with per-question means.
Nullable numeric cells are modelled as Option over the rationals; a
DataFrame is a list of rows; missing values propagate through means
exactly as the row-wise skip-missing rules of the code do.
-/

namespace HW5

/-- A Python value as seen by is_valid_email: a string (modelled as its
list of characters) or some non-string value. -/
inductive PyVal where
  | str (s : List Char)
  | nonStr
deriving DecidableEq

/-- One respondent record of the loaded table. -/
structure Row where
  age : Option ℚ
  email : PyVal
  gender : String
  q1 : Option ℚ
  q2 : Option ℚ
  q3 : Option ℚ
  q4 : Option ℚ
  q5 : Option ℚ
deriving DecidableEq

/-- The five question cells of a row, in column order q1..q5. -/
def qcells (r : Row) : List (Option ℚ) :=
  [r.q1, r.q2, r.q3, r.q4, r.q5]

/-- Embedding of QuestionnaireAnalysis.is_valid_email: exactly one at-sign
that is neither first nor last, at least one dot that is neither first nor
last, and the character right after the first at-sign is not a dot;
non-strings are rejected. -/
def is_valid_email (v : PyVal) : Bool :=
  match v with
  | .nonStr => false
  | .str s =>
    if s.count '@' != 1 || s.head? == some '@' || s.getLast? == some '@' then
      false
    else if s.count '.' == 0 || s.head? == some '.' || s.getLast? == some '.' then
      false
    else if s.get? (s.indexOf '@' + 1) == some '.' then
      false
    else
      true

/-- The validity rule as the specification words it: the value is a string
with exactly one at-sign, not starting or ending with an at-sign,
containing at least one dot, not starting or ending with a dot, and
no at-sign is immediately followed by a dot. -/
def ValidEmailSpec (s : List Char) : Prop :=
  s.count '@' = 1 ∧ s.head? ≠ some '@' ∧ s.getLast? ≠ some '@' ∧
  1 ≤ s.count '.' ∧ s.head? ≠ some '.' ∧ s.getLast? ≠ some '.' ∧
  ∀ i, s.get? i = some '@' → s.get? (i + 1) ≠ some '.'

lemma get?_indexOf_self {c : Char} {s : List Char} (h : c ∈ s) :
    s.get? (s.indexOf c) = some c := by
  induction s with
  | nil => cases h
  | cons x t ih =>
    by_cases hx : x = c
    · subst hx
      simp [List.indexOf_cons_self]
    · have hmem : c ∈ t := by
        rcases List.mem_cons.mp h with h1 | h1
        · exact absurd h1.symm hx
        · exact h1
      have hne : (x == c) = false := beq_false_of_ne hx
      have ht := ih hmem
      simp only [List.get?_eq_getElem?] at ht ⊢
      simp [List.indexOf_cons, hne, ht]

lemma count_one_get?_unique {c : Char} {s : List Char} (hc : s.count c = 1)
    {i j : ℕ} (hi : s.get? i = some c) (hj : s.get? j = some c) : i = j := by
  induction s generalizing i j with
  | nil => simp at hi
  | cons x t ih =>
    by_cases hx : x = c
    · subst hx
      have ht : t.count x = 0 := by
        have := List.count_cons_self x t
        omega
      have hnot : x ∉ t := by
        simpa [List.count_eq_zero] using ht
      match i, j with
      | 0, 0 => rfl
      | 0, j + 1 =>
        rw [List.get?_cons_succ] at hj
        exact absurd (List.get?_mem hj) hnot
      | i + 1, 0 =>
        rw [List.get?_cons_succ] at hi
        exact absurd (List.get?_mem hi) hnot
      | i + 1, j + 1 =>
        rw [List.get?_cons_succ] at hi
        exact absurd (List.get?_mem hi) hnot
    · have hne : (x == c) = false := beq_false_of_ne hx
      have ht : t.count c = 1 := by
        have := List.count_cons c x t
        simp [hne] at this
        omega
      match i, j with
      | 0, _ => simp at hi; exact absurd hi hx
      | Nat.succ _, 0 => simp at hj; exact absurd hj hx
      | i + 1, j + 1 =>
        rw [List.get?_cons_succ] at hi hj
        have := ih ht (i := i) (j := j) hi hj
        omega

lemma is_valid_email_str_iff (s : List Char) :
    is_valid_email (.str s) = true ↔
      (s.count '@' = 1 ∧ s.head? ≠ some '@' ∧ s.getLast? ≠ some '@' ∧
       s.count '.' ≠ 0 ∧ s.head? ≠ some '.' ∧ s.getLast? ≠ some '.' ∧
       s.get? (s.indexOf '@' + 1) ≠ some '.') := by
  simp only [is_valid_email]
  split
  · next h1 =>
    simp only [Bool.or_eq_true, bne_iff_ne, beq_iff_eq] at h1
    refine iff_of_false (by simp) ?_
    rintro ⟨a1, a2, a3, _, _, _, _⟩
    rcases h1 with (h | h) | h
    exacts [h a1, a2 h, a3 h]
  · next h1 =>
    simp only [Bool.or_eq_true, bne_iff_ne, beq_iff_eq, not_or, ne_eq,
      not_not] at h1
    split
    · next h2 =>
      simp only [Bool.or_eq_true, beq_iff_eq] at h2
      refine iff_of_false (by simp) ?_
      rintro ⟨_, _, _, b1, b2, b3, _⟩
      rcases h2 with (h | h) | h
      exacts [b1 h, b2 h, b3 h]
    · next h2 =>
      simp only [Bool.or_eq_true, beq_iff_eq, not_or, ne_eq] at h2
      split
      · next h3 =>
        simp only [beq_iff_eq] at h3
        refine iff_of_false (by simp) ?_
        rintro ⟨_, _, _, _, _, _, c1⟩
        exact c1 h3
      · next h3 =>
        simp only [beq_iff_eq] at h3
        exact iff_of_true rfl
          ⟨h1.1.1, h1.1.2, h1.2, h2.1.1, h2.1.2, h2.2, h3⟩

lemma after_at_iff (s : List Char) (hc : s.count '@' = 1) :
    s.get? (s.indexOf '@' + 1) ≠ some '.' ↔
      ∀ i, s.get? i = some '@' → s.get? (i + 1) ≠ some '.' := by
  have hmem : '@' ∈ s := by
    have hpos : 0 < s.count '@' := by omega
    exact List.count_pos_iff.mp hpos
  have hidx := get?_indexOf_self hmem
  constructor
  · intro h i hi
    have heq : i = s.indexOf '@' := count_one_get?_unique hc hi hidx
    rw [heq]
    exact h
  · intro h
    exact h _ hidx

/-- C1: is_valid_email returns true exactly on the string inputs that
contain exactly one at-sign, do not start or end with an at-sign, contain
at least one dot, do not start or end with a dot, and in which the
character immediately following the at-sign is not a dot. In particular
every non-string input yields false, and the dot is not required to occur
after the at-sign. -/
theorem is_valid_email_matches_rule (v : PyVal) :
    is_valid_email v = true ↔ ∃ s, v = PyVal.str s ∧ ValidEmailSpec s := by
  cases v with
  | nonStr =>
    simp [is_valid_email]
  | str s =>
    rw [is_valid_email_str_iff]
    constructor
    · rintro ⟨hc, h2, h3, h4, h5, h6, h7⟩
      exact ⟨s, rfl, hc, h2, h3, by omega, h5, h6, (after_at_iff s hc).mp h7⟩
    · rintro ⟨t, ht, hc, h2, h3, h4, h5, h6, h7⟩
      have hts : s = t := by injection ht
      subst hts
      exact ⟨hc, h2, h3, by omega, h5, h6, (after_at_iff s hc).mpr h7⟩

/-- Witness for C1 at a concrete valid address. -/
theorem is_valid_email_matches_rule_witness :
    ∃ s, PyVal.str ['a', '@', 'b', '.', 'c'] = PyVal.str s ∧ ValidEmailSpec s :=
  (is_valid_email_matches_rule (PyVal.str ['a', '@', 'b', '.', 'c'])).mp
    (by decide)

/-- Mean of the present values of a list of nullable cells, skipping
missing entries; missing when every entry is missing (pandas mean with
skipna set). -/
def meanOfOpt (l : List (Option ℚ)) : Option ℚ :=
  if l.filterMap id = [] then none
  else some ((l.filterMap id).sum / (l.filterMap id).length)

/-- The present (non-missing) q1..q5 values of a row, in column order. -/
def presentVals (r : Row) : List ℚ := (qcells r).filterMap id

/-- Row-wise mean of the q1..q5 values, skipping missing entries. -/
def rowMean (r : Row) : Option ℚ := meanOfOpt (qcells r)

/-- Number of missing entries among q1..q5 of the row. -/
def nansCount (r : Row) : ℕ := (qcells r).countP (fun c => c.isNone)

/-- Whether the row has at least one missing answer among q1..q5. -/
def rowHasNa (r : Row) : Bool := (qcells r).any (fun c => c.isNone)

/-- Filling one cell: a present cell is kept, a missing cell is replaced
by the fill value; filling with a missing value keeps the cell missing. -/
def fillna (m : Option ℚ) (c : Option ℚ) : Option ℚ :=
  match c with
  | some v => some v
  | none => m

/-- Body of the fill_na_with_mean loop on one selected row: compute the
skip-missing row mean and fill the missing cells with it. -/
def fillRow (r : Row) : Row :=
  { r with q1 := fillna (rowMean r) r.q1, q2 := fillna (rowMean r) r.q2,
           q3 := fillna (rowMean r) r.q3, q4 := fillna (rowMean r) r.q4,
           q5 := fillna (rowMean r) r.q5 }

/-- Write-back of a transformed row at position i of the table. -/
def modifyAt (f : Row → Row) : ℕ → List Row → List Row
  | _, [] => []
  | 0, r :: rs => f r :: rs
  | n + 1, r :: rs => r :: modifyAt f n rs

/-- Positional indices of the rows with at least one missing answer. -/
def naRowIndices (data : List Row) : List ℕ :=
  (List.range data.length).filter
    (fun i => ((data.get? i).map rowHasNa).getD false)

/-- The fill loop of fill_na_with_mean: for each selected index, read the
current row and write back the filled row. -/
def fillLoop (idxs : List ℕ) (df : List Row) : List Row :=
  idxs.foldl (fun df i => modifyAt fillRow i df) df

/-- Embedding of fill_na_with_mean: copy the table, select the rows with
missing answers, fill each with its skip-missing row mean, and return the
corrected copy together with the selected indices. -/
def fill_na_with_mean (data : List Row) : List Row × List ℕ :=
  (fillLoop (naRowIndices data) data, naRowIndices data)

/-- Embedding of score_subjects: each row receives a score, missing when
the row has more than maximal_nans_per_sub missing answers (or no present
answers at all), otherwise the floor of the skip-missing row mean, which
the code stores in an unsigned 8-bit column. -/
def score_subjects (maximal_nans_per_sub : ℕ) (data : List Row) :
    List (Row × Option ℤ) :=
  data.map (fun r =>
    (r, if nansCount r ≤ maximal_nans_per_sub
        then (rowMean r).map Int.floor
        else none))

/-- Embedding of remove_rows_without_mail: keep exactly the rows whose
email passes is_valid_email; the list positions give the reset ordinal
index. -/
def remove_rows_without_mail (data : List Row) : List Row :=
  data.filter (fun r => is_valid_email r.email)

/-- A concrete row with exactly one missing answer (the spec example
[80, 90, NA, 70, 60]). -/
def exRowA : Row :=
  { age := some 30, email := PyVal.str ['a', '@', 'b', '.', 'c'],
    gender := "F", q1 := some 80, q2 := some 90, q3 := none,
    q4 := some 70, q5 := some 60 }

/-- A concrete row with exactly two missing answers (the spec example
[NA, NA, 70, 80, 90]). -/
def exRowB : Row :=
  { age := some 50, email := PyVal.nonStr, gender := "M",
    q1 := none, q2 := none, q3 := some 70, q4 := some 80, q5 := some 90 }

lemma mean_bounds {v : List ℚ} (hb : ∀ q ∈ v, 0 ≤ q ∧ q ≤ 100)
    (hne : v ≠ []) : 0 ≤ v.sum / v.length ∧ v.sum / v.length ≤ 100 := by
  have hlen : 0 < (v.length : ℚ) := by
    have : 0 < v.length := List.length_pos.mpr hne
    exact_mod_cast this
  have hsum0 : 0 ≤ v.sum := List.sum_nonneg (fun q hq => (hb q hq).1)
  have hsum100 : v.sum ≤ (v.length : ℚ) * 100 := by
    have := List.sum_le_card_nsmul v 100 (fun q hq => (hb q hq).2)
    simpa [nsmul_eq_mul] using this
  constructor
  · positivity
  · rw [div_le_iff₀ hlen]
    linarith

lemma rowMean_eq_some {r : Row} (h : presentVals r ≠ []) :
    rowMean r = some ((presentVals r).sum / (presentVals r).length) := by
  have hpv : (qcells r).filterMap id = presentVals r := rfl
  simp only [rowMean, meanOfOpt, hpv]
  rw [if_neg h]

lemma rowMean_eq_none {r : Row} (h : presentVals r = []) :
    rowMean r = none := by
  have hpv : (qcells r).filterMap id = presentVals r := rfl
  simp only [rowMean, meanOfOpt, hpv]
  rw [if_pos h]

/-- C2: in score_subjects, a row whose count of missing q1..q5 answers
exceeds maximal_nans_per_sub is scored missing; any other row with at
least one present answer is scored with the floor of the mean of its
present answers, a value that fits the unsigned 8-bit score column
whenever the raw answers lie in [0, 100]. -/
theorem score_subjects_rule (m : ℕ) (data : List Row) (i : ℕ) (r : Row)
    (h : data.get? i = some r) :
    ∃ s, (score_subjects m data).get? i = some (r, s) ∧
      (m < nansCount r → s = none) ∧
      (nansCount r ≤ m → presentVals r ≠ [] →
        s = some ⌊(presentVals r).sum / (presentVals r).length⌋) ∧
      (∀ z, s = some z → (∀ q ∈ presentVals r, 0 ≤ q ∧ q ≤ 100) →
        0 ≤ z ∧ z ≤ 255) := by
  refine ⟨if nansCount r ≤ m then (rowMean r).map Int.floor else none,
    ?_, ?_, ?_, ?_⟩
  · have hmap : (score_subjects m data).get? i = (data.get? i).map
        (fun r => (r, if nansCount r ≤ m
          then (rowMean r).map Int.floor else none)) :=
      List.get?_map _ _ _
    rw [hmap, h]
    rfl
  · intro hm
    rw [if_neg (by omega)]
  · intro hm hne
    rw [if_pos hm, rowMean_eq_some hne, Option.map_some']
  · intro z hz hb
    by_cases hm : nansCount r ≤ m
    · rw [if_pos hm] at hz
      cases hpv : presentVals r with
      | nil => rw [rowMean_eq_none hpv] at hz; cases hz
      | cons a tl =>
        have hne : presentVals r ≠ [] := by rw [hpv]; simp
        rw [rowMean_eq_some hne, Option.map_some'] at hz
        have hzeq : z = ⌊(presentVals r).sum / (presentVals r).length⌋ := by
          injection hz.symm
        obtain ⟨hlo, hhi⟩ := mean_bounds hb hne
        constructor
        · rw [hzeq]; exact Int.floor_nonneg.mpr hlo
        · rw [hzeq]
          calc ⌊(presentVals r).sum / (presentVals r).length⌋
              ≤ ⌊(100 : ℚ)⌋ := Int.floor_le_floor hhi
            _ ≤ 255 := by norm_num
    · rw [if_neg hm] at hz; cases hz

/-- Witness for C2: on the spec's two example rows with threshold 1, the
first row scores 75 and the second is scored missing; the general rule is
instantiated at the first row. -/
theorem score_subjects_rule_witness :
    score_subjects 1 [exRowA, exRowB] = [(exRowA, some 75), (exRowB, none)] ∧
    ∃ s, (score_subjects 1 [exRowA, exRowB]).get? 0 = some (exRowA, s) ∧
      (1 < nansCount exRowA → s = none) ∧
      (nansCount exRowA ≤ 1 → presentVals exRowA ≠ [] →
        s = some ⌊(presentVals exRowA).sum / (presentVals exRowA).length⌋) ∧
      (∀ z, s = some z → (∀ q ∈ presentVals exRowA, 0 ≤ q ∧ q ≤ 100) →
        0 ≤ z ∧ z ≤ 255) :=
  ⟨by
      norm_num [score_subjects, exRowA, exRowB, nansCount, rowMean,
        meanOfOpt, qcells, List.filterMap_cons]
      exact ⟨75, ⟨by simp, rfl⟩, by norm_num⟩,
   score_subjects_rule 1 [exRowA, exRowB] 0 exRowA rfl⟩

/-- C6: remove_rows_without_mail is exactly the filter of the table by
email validity: a sublist of the input (original relative order, ordinal
positions renumbered from 0), never longer than the input, containing a
row of the input if and only if its email is valid. -/
theorem remove_rows_without_mail_rule (data : List Row) :
    remove_rows_without_mail data =
      data.filter (fun r => is_valid_email r.email) ∧
    (remove_rows_without_mail data).Sublist data ∧
    (remove_rows_without_mail data).length ≤ data.length ∧
    (∀ r, r ∈ remove_rows_without_mail data ↔
      r ∈ data ∧ is_valid_email r.email = true) := by
  refine ⟨rfl, List.filter_sublist data, List.length_filter_le _ data, ?_⟩
  intro r
  exact List.mem_filter

/-- Witness for C6 at a concrete two-row table: only the row with the
valid address survives. -/
theorem remove_rows_without_mail_rule_witness :
    remove_rows_without_mail [exRowA, exRowB] = [exRowA] ∧
    (remove_rows_without_mail [exRowA, exRowB] =
      [exRowA, exRowB].filter (fun r => is_valid_email r.email) ∧
    (remove_rows_without_mail [exRowA, exRowB]).Sublist [exRowA, exRowB] ∧
    (remove_rows_without_mail [exRowA, exRowB]).length ≤ 2 ∧
    (∀ r, r ∈ remove_rows_without_mail [exRowA, exRowB] ↔
      r ∈ [exRowA, exRowB] ∧ is_valid_email r.email = true)) :=
  ⟨by decide, remove_rows_without_mail_rule [exRowA, exRowB]⟩

lemma modifyAt_get? (f : Row → Row) (j : ℕ) (df : List Row) (i : ℕ) :
    (modifyAt f j df).get? i =
      if i = j then (df.get? j).map f else df.get? i := by
  induction df generalizing i j with
  | nil => simp [modifyAt]
  | cons r rs ih =>
    cases j with
    | zero =>
      cases i with
      | zero => simp [modifyAt]
      | succ i => simp [modifyAt]
    | succ j =>
      cases i with
      | zero =>
        simp only [modifyAt, List.get?_cons_zero]
        rw [if_neg (by omega)]
      | succ i =>
        simp only [modifyAt, List.get?_cons_succ]
        rw [ih]
        by_cases hh : i = j
        · rw [if_pos hh, if_pos (by omega)]
        · rw [if_neg hh, if_neg (by omega)]

lemma modifyAt_length (f : Row → Row) (j : ℕ) (df : List Row) :
    (modifyAt f j df).length = df.length := by
  induction df generalizing j with
  | nil => simp [modifyAt]
  | cons r rs ih =>
    cases j with
    | zero => simp [modifyAt]
    | succ j => simp [modifyAt, ih]

lemma fillLoop_get? (idxs : List ℕ) (df : List Row) (hnd : idxs.Nodup)
    (i : ℕ) :
    (fillLoop idxs df).get? i =
      if i ∈ idxs then (df.get? i).map fillRow else df.get? i := by
  induction idxs generalizing df with
  | nil => simp [fillLoop]
  | cons j rest ih =>
    have hnd2 : rest.Nodup := (List.nodup_cons.mp hnd).2
    have hj : j ∉ rest := (List.nodup_cons.mp hnd).1
    have hstep : fillLoop (j :: rest) df =
        fillLoop rest (modifyAt fillRow j df) := rfl
    rw [hstep, ih _ hnd2]
    by_cases hir : i ∈ rest
    · rw [if_pos hir, if_pos (List.mem_cons_of_mem _ hir), modifyAt_get?]
      have hij : i ≠ j := fun he => hj (he ▸ hir)
      rw [if_neg hij]
    · rw [if_neg hir, modifyAt_get?]
      by_cases hij : i = j
      · subst hij
        rw [if_pos rfl, if_pos (List.mem_cons_self _ _)]
      · rw [if_neg hij, if_neg (by simp [hij, hir])]

lemma fillLoop_length (idxs : List ℕ) (df : List Row) :
    (fillLoop idxs df).length = df.length := by
  induction idxs generalizing df with
  | nil => simp [fillLoop]
  | cons j rest ih =>
    have hstep : fillLoop (j :: rest) df =
        fillLoop rest (modifyAt fillRow j df) := rfl
    rw [hstep, ih, modifyAt_length]

lemma mem_naRowIndices {data : List Row} {i : ℕ} :
    i ∈ naRowIndices data ↔
      ∃ r, data.get? i = some r ∧ rowHasNa r = true := by
  unfold naRowIndices
  rw [List.mem_filter, List.mem_range]
  constructor
  · rintro ⟨hlt, hcond⟩
    cases hg : data.get? i with
    | none => rw [hg] at hcond; simp at hcond
    | some r =>
      refine ⟨r, rfl, ?_⟩
      rw [hg] at hcond
      simpa using hcond
  · rintro ⟨r, hg, hna⟩
    have hlt : i < data.length := by
      by_contra hle
      rw [List.get?_eq_none.mpr (by omega)] at hg
      cases hg
    exact ⟨hlt, by rw [hg]; simpa using hna⟩

lemma naRowIndices_nodup (data : List Row) : (naRowIndices data).Nodup :=
  (List.nodup_range _).filter _

lemma naRowIndices_sorted (data : List Row) :
    (naRowIndices data).Sorted (· < ·) :=
  (List.pairwise_lt_range _).filter _

lemma fillna_none (c : Option ℚ) : fillna none c = c := by
  cases c <;> rfl

lemma fillRow_of_no_present {r : Row} (h : presentVals r = []) :
    fillRow r = r := by
  have hm := rowMean_eq_none h
  cases r
  simp [fillRow, hm, fillna_none]

lemma presentVals_nil_cells {r : Row} (h : presentVals r = []) :
    r.q1 = none ∧ r.q2 = none ∧ r.q3 = none ∧ r.q4 = none ∧ r.q5 = none := by
  have hall : ∀ c ∈ qcells r, (id c : Option ℚ) = none :=
    List.filterMap_eq_nil.mp h
  exact ⟨hall r.q1 (by simp [qcells]), hall r.q2 (by simp [qcells]),
    hall r.q3 (by simp [qcells]), hall r.q4 (by simp [qcells]),
    hall r.q5 (by simp [qcells])⟩

lemma rowHasNa_of_no_present {r : Row} (h : presentVals r = []) :
    rowHasNa r = true := by
  obtain ⟨h1, _, _, _, _⟩ := presentVals_nil_cells h
  simp [rowHasNa, qcells, h1]

lemma fill_cell_spec {r : Row} (hp : presentVals r ≠ []) (c : Option ℚ) :
    (∀ v, c = some v → fillna (rowMean r) c = some v) ∧
    (c = none → fillna (rowMean r) c =
      some ((presentVals r).sum / (presentVals r).length)) := by
  constructor
  · intro v hv; rw [hv]; rfl
  · intro hv; rw [hv]
    simp [fillna, rowMean_eq_some hp]

/-- C3: fill_na_with_mean returns a corrected copy of the same length in
which every row with at least one missing and at least one present answer
keeps its present answers and other fields and has each missing answer
replaced by the mean of its present answers; rows with no missing answer,
and rows whose five answers are all missing, come back unchanged; the
returned row indices are in ascending original-index order. -/
theorem fill_na_with_mean_rule (data : List Row) (i : ℕ) (r : Row)
    (h : data.get? i = some r) :
    (fill_na_with_mean data).1.length = data.length ∧
    (fill_na_with_mean data).2.Sorted (· < ·) ∧
    ∃ r2, (fill_na_with_mean data).1.get? i = some r2 ∧
      (rowHasNa r = false → r2 = r) ∧
      (presentVals r = [] → r2 = r) ∧
      (rowHasNa r = true → presentVals r ≠ [] →
        r2.age = r.age ∧ r2.email = r.email ∧ r2.gender = r.gender ∧
        ∀ j c c2, (qcells r).get? j = some c → (qcells r2).get? j = some c2 →
          (∀ v, c = some v → c2 = some v) ∧
          (c = none →
            c2 = some ((presentVals r).sum / (presentVals r).length))) := by
  refine ⟨fillLoop_length _ _, naRowIndices_sorted data, ?_⟩
  have hget :=
    fillLoop_get? (naRowIndices data) data (naRowIndices_nodup data) i
  by_cases hna : rowHasNa r = true
  · have hmem : i ∈ naRowIndices data := mem_naRowIndices.mpr ⟨r, h, hna⟩
    rw [if_pos hmem, h, Option.map_some'] at hget
    refine ⟨fillRow r, hget, ?_, ?_, ?_⟩
    · intro hf; rw [hna] at hf; cases hf
    · intro hp; exact fillRow_of_no_present hp
    · intro _ hp
      refine ⟨rfl, rfl, rfl, ?_⟩
      intro j c c2 hc hc2
      have hj5 : j < 5 := by
        by_contra hge
        rw [List.get?_eq_none.mpr (by simp [qcells]; omega)] at hc
        cases hc
      interval_cases j <;>
      · simp only [qcells, fillRow, List.get?_cons_zero, List.get?_cons_succ,
          Option.some.injEq] at hc hc2
        subst hc
        subst hc2
        exact fill_cell_spec hp _
  · have hnaf : rowHasNa r = false := by
      cases hb : rowHasNa r
      · rfl
      · exact absurd hb hna
    have hmem : i ∉ naRowIndices data := by
      intro hm
      obtain ⟨r2, h2, hna2⟩ := mem_naRowIndices.mp hm
      rw [h] at h2
      injection h2 with h2
      rw [h2] at hnaf
      rw [hnaf] at hna2
      cases hna2
    rw [if_neg hmem, h] at hget
    exact ⟨r, hget, fun _ => rfl, fun _ => rfl,
      fun hf _ => absurd hf hna⟩

/-- Witness for C3 at a one-row table whose row has one missing answer. -/
theorem fill_na_with_mean_rule_witness :
    (fill_na_with_mean [exRowA]).1.length = [exRowA].length ∧
    (fill_na_with_mean [exRowA]).2.Sorted (· < ·) ∧
    ∃ r2, (fill_na_with_mean [exRowA]).1.get? 0 = some r2 ∧
      (rowHasNa exRowA = false → r2 = exRowA) ∧
      (presentVals exRowA = [] → r2 = exRowA) ∧
      (rowHasNa exRowA = true → presentVals exRowA ≠ [] →
        r2.age = exRowA.age ∧ r2.email = exRowA.email ∧
        r2.gender = exRowA.gender ∧
        ∀ j c c2, (qcells exRowA).get? j = some c →
          (qcells r2).get? j = some c2 →
          (∀ v, c = some v → c2 = some v) ∧
          (c = none → c2 = some
            ((presentVals exRowA).sum / (presentVals exRowA).length))) :=
  fill_na_with_mean_rule [exRowA] 0 exRowA rfl

/-- An all-missing row: no question was answered. -/
def exRowN : Row :=
  { age := some 20, email := PyVal.nonStr, gender := "F",
    q1 := none, q2 := none, q3 := none, q4 := none, q5 := none }

/-- C9: the index array of fill_na_with_mean is the ascending list of the
positions of the rows with at least one missing answer; in particular a
row whose five answers are all missing is reported as modified even
though it is returned unchanged. -/
theorem fill_na_indices_exact (data : List Row) :
    (fill_na_with_mean data).2.Sorted (· < ·) ∧
    (∀ i, i ∈ (fill_na_with_mean data).2 ↔
      ∃ r, data.get? i = some r ∧ rowHasNa r = true) ∧
    (∀ i r, data.get? i = some r → presentVals r = [] →
      i ∈ (fill_na_with_mean data).2 ∧
      (fill_na_with_mean data).1.get? i = some r) := by
  refine ⟨naRowIndices_sorted data, fun i => mem_naRowIndices, ?_⟩
  intro i r h hp
  have hna := rowHasNa_of_no_present hp
  have hmem : i ∈ naRowIndices data := mem_naRowIndices.mpr ⟨r, h, hna⟩
  refine ⟨hmem, ?_⟩
  have hget :=
    fillLoop_get? (naRowIndices data) data (naRowIndices_nodup data) i
  rw [if_pos hmem, h, Option.map_some'] at hget
  have h1 : (fill_na_with_mean data).1 = fillLoop (naRowIndices data) data :=
    rfl
  rw [h1, hget, fillRow_of_no_present hp]

/-- Witness for C9 at a table whose only row is entirely missing. -/
theorem fill_na_indices_exact_witness :
    (fill_na_with_mean [exRowN]).2.Sorted (· < ·) ∧
    (∀ i, i ∈ (fill_na_with_mean [exRowN]).2 ↔
      ∃ r, [exRowN].get? i = some r ∧ rowHasNa r = true) ∧
    (∀ i r, [exRowN].get? i = some r → presentVals r = [] →
      i ∈ (fill_na_with_mean [exRowN]).2 ∧
      (fill_na_with_mean [exRowN]).1.get? i = some r) :=
  fill_na_indices_exact [exRowN]

/-- The fixed histogram bin edges 0, 10, ..., 100 of show_age_distrib. -/
def binEdges : List ℚ := (List.range 11).map (fun k => (10 * k : ℚ))

/-- Whether an age falls in histogram bin k: bins are left-closed and
right-open, except the last bin which also contains the right edge 100. -/
def inBin (k : ℕ) (a : ℚ) : Bool :=
  if k = 9 then decide (90 ≤ a ∧ a ≤ 100)
  else decide (10 * (k : ℚ) ≤ a ∧ a < 10 * ((k : ℚ) + 1))

/-- The non-missing ages of the table, in row order. -/
def ages (data : List Row) : List ℚ := data.filterMap Row.age

/-- Embedding of show_age_distrib: per-bin counts of the non-missing ages
and the fixed bin edges. -/
def show_age_distrib (data : List Row) : List ℕ × List ℚ :=
  ((List.range 10).map (fun k => ((ages data).filter (inBin k)).length),
   binEdges)

lemma inBin_range {k : ℕ} {a : ℚ} (hk : k < 10) (h : inBin k a = true) :
    0 ≤ a ∧ a ≤ 100 := by
  unfold inBin at h
  by_cases h9 : k = 9
  · rw [if_pos h9, decide_eq_true_eq] at h
    exact ⟨by linarith [h.1], h.2⟩
  · rw [if_neg h9, decide_eq_true_eq] at h
    have hk8 : (k : ℚ) ≤ 8 := by
      exact_mod_cast (by omega : k ≤ 8)
    have hk0 : (0 : ℚ) ≤ (k : ℚ) := by positivity
    exact ⟨by nlinarith [h.1], by nlinarith [h.2]⟩

lemma inBin_lower {k : ℕ} {a : ℚ} (h : inBin k a = true) :
    10 * (k : ℚ) ≤ a := by
  unfold inBin at h
  by_cases h9 : k = 9
  · rw [if_pos h9, decide_eq_true_eq] at h
    subst h9
    push_cast
    linarith [h.1]
  · rw [if_neg h9, decide_eq_true_eq] at h
    exact h.1

lemma inBin_upper_strict {k : ℕ} {a : ℚ} (h9 : k ≠ 9)
    (h : inBin k a = true) : a < 10 * ((k : ℚ) + 1) := by
  unfold inBin at h
  rw [if_neg h9, decide_eq_true_eq] at h
  exact h.2

lemma inBin_unique {j k : ℕ} {a : ℚ} (hj : j < 10) (hk : k < 10)
    (h1 : inBin j a = true) (h2 : inBin k a = true) : j = k := by
  rcases lt_trichotomy j k with hlt | heq | hlt
  · exfalso
    have hj9 : j ≠ 9 := by omega
    have hs := inBin_upper_strict hj9 h1
    have hl := inBin_lower h2
    have hjk : (j : ℚ) + 1 ≤ (k : ℚ) := by
      exact_mod_cast (by omega : j + 1 ≤ k)
    linarith
  · exact heq
  · exfalso
    have hk9 : k ≠ 9 := by omega
    have hs := inBin_upper_strict hk9 h2
    have hl := inBin_lower h1
    have hkj : (k : ℚ) + 1 ≤ (j : ℚ) := by
      exact_mod_cast (by omega : k + 1 ≤ j)
    linarith

lemma inBin_exists {a : ℚ} (h0 : 0 ≤ a) (h100 : a ≤ 100) :
    ∃ k, k < 10 ∧ inBin k a = true := by
  by_cases h90 : 90 ≤ a
  · refine ⟨9, by omega, ?_⟩
    unfold inBin
    rw [if_pos rfl, decide_eq_true_eq]
    exact ⟨h90, h100⟩
  · push_neg at h90
    have hn0 : 0 ≤ ⌊a / 10⌋ :=
      Int.floor_nonneg.mpr (div_nonneg h0 (by norm_num))
    have hfl : ((⌊a / 10⌋ : ℤ) : ℚ) ≤ a / 10 := Int.floor_le _
    have hfu : a / 10 < (⌊a / 10⌋ : ℚ) + 1 := Int.lt_floor_add_one _
    have hn9 : ⌊a / 10⌋ < 9 := by
      have h9 : a / 10 < 9 := by linarith
      exact_mod_cast lt_of_le_of_lt hfl h9
    refine ⟨(⌊a / 10⌋).toNat, by omega, ?_⟩
    have hk9 : (⌊a / 10⌋).toNat ≠ 9 := by omega
    have hkq : (((⌊a / 10⌋).toNat : ℕ) : ℚ) = ((⌊a / 10⌋ : ℤ) : ℚ) := by
      exact_mod_cast Int.toNat_of_nonneg hn0
    unfold inBin
    rw [if_neg hk9, decide_eq_true_eq, hkq]
    constructor
    · have hmul : ((⌊a / 10⌋ : ℤ) : ℚ) * 10 ≤ a := by
        rw [le_div_iff₀ (by norm_num : (0:ℚ) < 10)] at hfl
        exact hfl
      linarith
    · have hmul : a < (((⌊a / 10⌋ : ℤ) : ℚ) + 1) * 10 := by
        rw [div_lt_iff₀ (by norm_num : (0:ℚ) < 10)] at hfu
        exact hfu
      linarith

lemma countP_eq_one_of_unique {p : ℕ → Bool} {l : List ℕ} (hl : l.Nodup)
    {k : ℕ} (hk : k ∈ l) (hpk : p k = true)
    (huniq : ∀ j ∈ l, p j = true → j = k) : l.countP p = 1 := by
  induction l with
  | nil => cases hk
  | cons x t ih =>
    obtain ⟨hxt, hnd⟩ := List.nodup_cons.mp hl
    by_cases hpx : p x = true
    · have hxk : x = k := huniq x (List.mem_cons_self _ _) hpx
      have ht0 : t.countP p = 0 := by
        rw [List.countP_eq_zero]
        intro j hj hpj
        have hjk : j = k := huniq j (List.mem_cons_of_mem _ hj) hpj
        rw [hjk, ← hxk] at hj
        exact hxt hj
      rw [List.countP_cons_of_pos _ _ hpx, ht0]
    · have hkt : k ∈ t := by
        rcases List.mem_cons.mp hk with hkx | hkt
        · exact absurd (hkx ▸ hpk) hpx
        · exact hkt
      rw [List.countP_cons_of_neg _ _ hpx]
      exact ih hnd hkt (fun j hj hpj =>
        huniq j (List.mem_cons_of_mem _ hj) hpj)

lemma binsHit (a : ℚ) :
    (List.range 10).countP (fun k => inBin k a) =
      if 0 ≤ a ∧ a ≤ 100 then 1 else 0 := by
  by_cases hin : 0 ≤ a ∧ a ≤ 100
  · rw [if_pos hin]
    obtain ⟨k, hk10, hbin⟩ := inBin_exists hin.1 hin.2
    exact countP_eq_one_of_unique (List.nodup_range 10)
      (List.mem_range.mpr hk10) hbin
      (fun j hj hpj =>
        inBin_unique (List.mem_range.mp hj) hk10 hpj hbin)
  · rw [if_neg hin, List.countP_eq_zero]
    intro k hk hbin
    exact hin (inBin_range (List.mem_range.mp hk) hbin)

lemma sum_map_add (l : List ℕ) (f g : ℕ → ℕ) :
    (l.map (fun k => f k + g k)).sum = (l.map f).sum + (l.map g).sum := by
  induction l with
  | nil => rfl
  | cons x t ih =>
    simp only [List.map_cons, List.sum_cons, ih]
    omega

lemma sum_map_indicator (l : List ℕ) (p : ℕ → Bool) :
    (l.map (fun k => if p k then 1 else 0)).sum = l.countP p := by
  induction l with
  | nil => rfl
  | cons x t ih =>
    simp only [List.map_cons, List.sum_cons, ih]
    by_cases hx : p x = true
    · rw [if_pos hx, List.countP_cons_of_pos _ _ hx]
      omega
    · rw [if_neg hx, List.countP_cons_of_neg _ _ hx]
      omega

lemma hist_sum (l : List ℚ) :
    ((List.range 10).map (fun k => (l.filter (inBin k)).length)).sum =
      (l.filter (fun a => decide (0 ≤ a ∧ a ≤ 100))).length := by
  induction l with
  | nil => simp
  | cons a t ih =>
    have hsplit : ∀ k : ℕ, ((a :: t).filter (inBin k)).length =
        (t.filter (inBin k)).length + (if inBin k a then 1 else 0) := by
      intro k
      by_cases hk : inBin k a = true
      · rw [List.filter_cons_of_pos hk, if_pos hk]
        simp
      · rw [List.filter_cons_of_neg hk, if_neg hk]
        omega
    simp only [hsplit]
    rw [sum_map_add, ih, sum_map_indicator, binsHit]
    by_cases hin : 0 ≤ a ∧ a ≤ 100
    · rw [if_pos hin,
        List.filter_cons_of_pos (by rw [decide_eq_true_eq]; exact hin)]
      simp [Nat.add_comm]
    · rw [if_neg hin,
        List.filter_cons_of_neg (by rw [decide_eq_true_eq]; exact hin)]
      omega

/-- A row whose age 150 lies outside the histogram range. -/
def exRow150 : Row :=
  { age := some 150, email := PyVal.nonStr, gender := "M",
    q1 := some 1, q2 := some 2, q3 := some 3, q4 := some 4, q5 := some 5 }

lemma exRow150_sum_lt :
    (show_age_distrib [exRow150]).1.sum < (ages [exRow150]).length := by
  have h1 : (show_age_distrib [exRow150]).1 =
      (List.range 10).map
        (fun k => ((ages [exRow150]).filter (inBin k)).length) := rfl
  rw [h1, hist_sum (ages [exRow150])]
  have hages : ages [exRow150] = [150] := rfl
  rw [hages, List.filter_cons_of_neg (by norm_num)]
  simp

/-- Counterexample to C5 as stated: on a table whose only row has the
non-missing age 150, the bin counts sum to 0 while one row has a
non-missing age. -/
theorem show_age_distrib_sum_counterexample :
    ¬ ((show_age_distrib [exRow150]).1.sum = (ages [exRow150]).length) := by
  have h := exRow150_sum_lt
  omega

/-- C5 (amended): show_age_distrib returns the bin edges
[0, 10, ..., 100] (length 11), and bin counts whose sum equals the number
of rows whose age is non-missing and lies within [0, 100]; rows with
missing age are excluded from every bin. -/
theorem show_age_distrib_amended (data : List Row) :
    (show_age_distrib data).2 =
      [0, 10, 20, 30, 40, 50, 60, 70, 80, 90, 100] ∧
    (show_age_distrib data).2.length = 11 ∧
    (show_age_distrib data).1.sum =
      ((ages data).filter (fun a => decide (0 ≤ a ∧ a ≤ 100))).length := by
  refine ⟨?_, ?_, hist_sum (ages data)⟩
  · show binEdges = _
    unfold binEdges
    norm_num [List.range_succ]
  · have hlen : (show_age_distrib data).2.length = (List.range 11).length :=
      List.length_map _ _
    rw [hlen, List.length_range]

/-- C10: an age outside the closed interval [0, 100] falls in no histogram
bin, the bin counts sum exactly to the number of rows with a non-missing
age inside [0, 100], and on a concrete table with an out-of-range age the
counts sum to strictly less than the number of non-missing ages. -/
theorem out_of_range_age_excluded (data : List Row) (a : ℚ)
    (h : a < 0 ∨ 100 < a) :
    (∀ k, k < 10 → inBin k a = false) ∧
    (show_age_distrib data).1.sum =
      ((ages data).filter (fun x => decide (0 ≤ x ∧ x ≤ 100))).length ∧
    (show_age_distrib [exRow150]).1.sum < (ages [exRow150]).length := by
  refine ⟨?_, hist_sum (ages data), exRow150_sum_lt⟩
  intro k hk
  cases hb : inBin k a with
  | false => rfl
  | true =>
    obtain ⟨h0, h100⟩ := inBin_range hk hb
    rcases h with hlt | hlt <;> linarith

/-- Witness for C10 at the age 150 and the empty table. -/
theorem out_of_range_age_excluded_witness :
    (∀ k, k < 10 → inBin k (150 : ℚ) = false) ∧
    (show_age_distrib ([] : List Row)).1.sum =
      ((ages ([] : List Row)).filter
        (fun x => decide (0 ≤ x ∧ x ≤ 100))).length ∧
    (show_age_distrib [exRow150]).1.sum < (ages [exRow150]).length :=
  out_of_range_age_excluded [] 150 (Or.inr (by norm_num))

/-- Whether a kept row falls in the above-40 group: age strictly greater
than 40 (rows with missing age are dropped before this is computed). -/
def above40 (r : Row) : Bool := decide (40 < r.age.getD 0)

/-- The rows kept by correlate_gender_age (non-missing age) that fall in
the (gender, above_40) group. -/
def groupOf (data : List Row) (g : String) (b : Bool) : List Row :=
  (data.filter (fun r => r.age.isSome)).filter
    (fun r => r.gender == g && above40 r == b)

/-- Embedding of correlate_gender_age: for each realized group key, the
skip-missing mean of each of q1..q5 over the group's rows. -/
def correlate_gender_age (data : List Row) (g : String) (b : Bool) :
    Option (List (Option ℚ)) :=
  if groupOf data g b = [] then none
  else some ([Row.q1, Row.q2, Row.q3, Row.q4, Row.q5].map
    (fun sel => meanOfOpt ((groupOf data g b).map sel)))

/-- C4: correlate_gender_age excludes every row with missing age from all
groups, places a row in the above-40 group exactly when its age is
strictly greater than 40 (age exactly 40 goes to the not-above-40 group),
and for each realized (gender, above_40) group returns per question the
arithmetic mean of the group's non-missing values. -/
theorem correlate_gender_age_rule (data : List Row) (g : String)
    (b : Bool) :
    (∀ r, r ∈ groupOf data g b ↔
      (r ∈ data ∧ r.gender = g ∧
        ∃ a, r.age = some a ∧ (40 < a ↔ b = true))) ∧
    (∀ r ∈ data, r.age = none → r ∉ groupOf data g b) ∧
    (∀ r ∈ data, r.age = some 40 → r.gender = g →
      r ∈ groupOf data g false) ∧
    (groupOf data g b ≠ [] →
      correlate_gender_age data g b =
        some ([Row.q1, Row.q2, Row.q3, Row.q4, Row.q5].map
          (fun sel => meanOfOpt ((groupOf data g b).map sel))) ∧
      ∀ sel : Row → Option ℚ, ∀ vs,
        vs = ((groupOf data g b).map sel).filterMap id →
        (vs = [] → meanOfOpt ((groupOf data g b).map sel) = none) ∧
        (vs ≠ [] → meanOfOpt ((groupOf data g b).map sel) =
          some (vs.sum / vs.length))) := by
  have hmem : ∀ r, r ∈ groupOf data g b ↔
      (r ∈ data ∧ r.gender = g ∧
        ∃ a, r.age = some a ∧ (40 < a ↔ b = true)) := by
    intro r
    unfold groupOf
    rw [List.mem_filter, List.mem_filter]
    constructor
    · rintro ⟨⟨hd, hsome⟩, hcond⟩
      rw [Bool.and_eq_true, beq_iff_eq, beq_iff_eq] at hcond
      obtain ⟨a, ha⟩ := Option.isSome_iff_exists.mp hsome
      refine ⟨hd, hcond.1, a, ha, ?_⟩
      have h40 : above40 r = decide (40 < a) := by
        unfold above40
        rw [ha]
        rfl
      rw [h40] at hcond
      constructor
      · intro hlt
        rw [← hcond.2, decide_eq_true_eq]
        exact hlt
      · intro hb
        rw [hb] at hcond
        exact of_decide_eq_true hcond.2
    · rintro ⟨hd, hg, a, ha, hiff⟩
      refine ⟨⟨hd, by rw [ha]; rfl⟩, ?_⟩
      rw [Bool.and_eq_true, beq_iff_eq, beq_iff_eq]
      refine ⟨hg, ?_⟩
      have h40 : above40 r = decide (40 < a) := by
        unfold above40
        rw [ha]
        rfl
      rw [h40]
      cases b with
      | true => exact decide_eq_true (hiff.mpr rfl)
      | false =>
        refine decide_eq_false ?_
        intro hlt
        cases hiff.mp hlt
  refine ⟨hmem, ?_, ?_, ?_⟩
  · intro r _ hnone hing
    obtain ⟨_, _, a, ha, _⟩ := (hmem r).mp hing
    rw [hnone] at ha
    cases ha
  · intro r hd h40 hg
    have hmem0 : ∀ r2, r2 ∈ groupOf data g false ↔
        (r2 ∈ data ∧ r2.gender = g ∧
          ∃ a, r2.age = some a ∧ (40 < a ↔ false = true)) := by
      intro r2
      unfold groupOf
      rw [List.mem_filter, List.mem_filter]
      constructor
      · rintro ⟨⟨hd2, hsome⟩, hcond⟩
        rw [Bool.and_eq_true, beq_iff_eq, beq_iff_eq] at hcond
        obtain ⟨a, ha⟩ := Option.isSome_iff_exists.mp hsome
        refine ⟨hd2, hcond.1, a, ha, ?_⟩
        have hb40 : above40 r2 = decide (40 < a) := by
          unfold above40
          rw [ha]
          rfl
        rw [hb40] at hcond
        constructor
        · intro hlt
          rw [← hcond.2, decide_eq_true_eq]
          exact hlt
        · intro hb
          cases hb
      · rintro ⟨hd2, hg2, a, ha, hiff⟩
        refine ⟨⟨hd2, by rw [ha]; rfl⟩, ?_⟩
        rw [Bool.and_eq_true, beq_iff_eq, beq_iff_eq]
        refine ⟨hg2, ?_⟩
        have hb40 : above40 r2 = decide (40 < a) := by
          unfold above40
          rw [ha]
          rfl
        rw [hb40]
        refine decide_eq_false ?_
        intro hlt
        cases hiff.mp hlt
    refine (hmem0 r).mpr ⟨hd, hg, 40, h40, ?_⟩
    constructor
    · intro hlt
      exact absurd hlt (lt_irrefl 40)
    · intro hb
      cases hb
  · intro hne
    constructor
    · unfold correlate_gender_age
      rw [if_neg hne]
    · intro sel vs hvs
      constructor
      · intro hnil
        unfold meanOfOpt
        rw [← hvs, if_pos hnil]
      · intro hne2
        unfold meanOfOpt
        rw [← hvs, if_neg hne2]

/-- A row with age exactly 40 and a present gender. -/
def exRow40 : Row :=
  { age := some 40, email := PyVal.nonStr, gender := "F",
    q1 := some 10, q2 := some 20, q3 := none, q4 := some 30,
    q5 := some 40 }

/-- Witness for C4 on a one-row table whose row has age exactly 40. -/
theorem correlate_gender_age_rule_witness :
    (∀ r, r ∈ groupOf [exRow40] "F" false ↔
      (r ∈ [exRow40] ∧ r.gender = "F" ∧
        ∃ a, r.age = some a ∧ (40 < a ↔ false = true))) ∧
    (∀ r ∈ [exRow40], r.age = none → r ∉ groupOf [exRow40] "F" false) ∧
    (∀ r ∈ [exRow40], r.age = some 40 → r.gender = "F" →
      r ∈ groupOf [exRow40] "F" false) ∧
    (groupOf [exRow40] "F" false ≠ [] →
      correlate_gender_age [exRow40] "F" false =
        some ([Row.q1, Row.q2, Row.q3, Row.q4, Row.q5].map
          (fun sel => meanOfOpt ((groupOf [exRow40] "F" false).map sel))) ∧
      ∀ sel : Row → Option ℚ, ∀ vs,
        vs = ((groupOf [exRow40] "F" false).map sel).filterMap id →
        (vs = [] →
          meanOfOpt ((groupOf [exRow40] "F" false).map sel) = none) ∧
        (vs ≠ [] →
          meanOfOpt ((groupOf [exRow40] "F" false).map sel) =
            some (vs.sum / vs.length))) :=
  correlate_gender_age_rule [exRow40] "F" false

/-- The analyzer state: the stored record table. -/
structure AnalysisState where
  data : List Row
deriving DecidableEq

/-- read_data: parse the input file (given here already parsed) and
overwrite the stored table. -/
def read_data_op (newData : List Row) (s : AnalysisState) : AnalysisState :=
  { s with data := newData }

/-- show_age_distrib as a state operation: it computes from the stored
table and performs no write to the state. -/
def show_age_distrib_op (s : AnalysisState) :
    (List ℕ × List ℚ) × AnalysisState :=
  (show_age_distrib s.data, s)

/-- remove_rows_without_mail as a state operation: the filtered table is
a fresh value and the stored table is not reassigned. -/
def remove_rows_without_mail_op (s : AnalysisState) :
    List Row × AnalysisState :=
  (remove_rows_without_mail s.data, s)

/-- fill_na_with_mean as a state operation: the fill loop writes only to
the copied table, never to the stored one. -/
def fill_na_with_mean_op (s : AnalysisState) :
    (List Row × List ℕ) × AnalysisState :=
  (fill_na_with_mean s.data, s)

/-- score_subjects as a state operation: the score column is added to a
copy. -/
def score_subjects_op (m : ℕ) (s : AnalysisState) :
    List (Row × Option ℤ) × AnalysisState :=
  (score_subjects m s.data, s)

/-- correlate_gender_age as a state operation, in keyed-lookup form. -/
def correlate_gender_age_op (s : AnalysisState) :
    (String → Bool → Option (List (Option ℚ))) × AnalysisState :=
  (correlate_gender_age s.data, s)

/-- C7: every analysis operation leaves the stored record table exactly
equal to its value before the call; only read_data replaces it. -/
theorem analysis_ops_preserve_data (s : AnalysisState) (m : ℕ)
    (newData : List Row) :
    (show_age_distrib_op s).2.data = s.data ∧
    (remove_rows_without_mail_op s).2.data = s.data ∧
    (fill_na_with_mean_op s).2.data = s.data ∧
    (score_subjects_op m s).2.data = s.data ∧
    (correlate_gender_age_op s).2.data = s.data ∧
    (read_data_op newData s).data = newData :=
  ⟨rfl, rfl, rfl, rfl, rfl, rfl⟩

/-- A constructor argument: a Python string, a pathlib.Path, or a value
of any other type. -/
inductive PathArg where
  | str (p : String)
  | path (p : String)
  | other

/-- The two construction failures: the type error for a wrong-typed
argument, and the missing-file error. -/
inductive InitError where
  | invalidArgumentType
  | fileNotFound
deriving DecidableEq

/-- The state established by a successful construction: the validated
path is stored and no data has been read yet. -/
structure InitState where
  data_fname : String
  data : Option (List Row)
deriving DecidableEq

/-- Embedding of the constructor: a string argument is converted to a
path, any non-string non-path argument raises the type error, a path
that does not exist per the ambient filesystem raises the missing-file
error, and on success the path is stored with no data loaded. -/
def initAnalyzer (fileExists : String → Bool) (arg : PathArg) :
    Except InitError InitState :=
  match arg with
  | .other => .error .invalidArgumentType
  | .str p =>
      if fileExists p then .ok { data_fname := p, data := none }
      else .error .fileNotFound
  | .path p =>
      if fileExists p then .ok { data_fname := p, data := none }
      else .error .fileNotFound

/-- C8: construction with a wrong-typed argument fails with the type
error; construction with a string or path naming a nonexistent file
fails with the missing-file error; a successful construction stores the
validated path and has read no data yet. -/
theorem initAnalyzer_contract (fileExists : String → Bool) :
    (initAnalyzer fileExists .other = .error .invalidArgumentType) ∧
    (∀ p, fileExists p = false →
      initAnalyzer fileExists (.str p) = .error .fileNotFound ∧
      initAnalyzer fileExists (.path p) = .error .fileNotFound) ∧
    (∀ p, fileExists p = true →
      initAnalyzer fileExists (.str p) =
        .ok { data_fname := p, data := none } ∧
      initAnalyzer fileExists (.path p) =
        .ok { data_fname := p, data := none }) := by
  refine ⟨rfl, ?_, ?_⟩
  · intro p hp
    constructor <;> simp [initAnalyzer, hp]
  · intro p hp
    constructor <;> simp [initAnalyzer, hp]

/-- Witness for C8 over a filesystem containing only the file f. -/
theorem initAnalyzer_contract_witness :
    initAnalyzer (fun p => p == "f") (.str "g") = .error .fileNotFound ∧
    initAnalyzer (fun p => p == "f") (.str "f") =
      .ok { data_fname := "f", data := none } ∧
    initAnalyzer (fun p => p == "f") .other =
      .error .invalidArgumentType :=
  ⟨((initAnalyzer_contract (fun p => p == "f")).2.1 "g" (by decide)).1,
   ((initAnalyzer_contract (fun p => p == "f")).2.2 "f" (by decide)).1,
   (initAnalyzer_contract (fun p => p == "f")).1⟩

end HW5
